import Mathlib

/-!
Verification of the search/retrieval core of the unity-doc-mcp-server
repository, shallowly embedded in Lean 4.

Strings are modelled as `List Char`.  Each definition is translated from
the TypeScript source named in its doc comment.
-/

namespace UnityDocs

/-- ASCII letter or digit, the `[a-zA-Z0-9]` part of the regex character
classes in `DocumentSearch.sanitizeSearchQuery` (src/search/index.ts),
expressed on code points (`a`-`z` is 0x61-0x7A, `A`-`Z` is 0x41-0x5A,
`0`-`9` is 0x30-0x39). -/
def isAsciiAlnum (c : Char) : Bool :=
  ((0x61 ≤ c.toNat && c.toNat ≤ 0x7A) || (0x41 ≤ c.toNat && c.toNat ≤ 0x5A)
    || (0x30 ≤ c.toNat && c.toNat ≤ 0x39))

/-- The character set matched by the JavaScript regex class `\s`
(ECMAScript WhiteSpace and LineTerminator code points). -/
def isJsWhitespace (c : Char) : Bool :=
  (c.toNat == 0x20 || c.toNat == 0x09 || c.toNat == 0x0A || c.toNat == 0x0D
    || c.toNat == 0x0B || c.toNat == 0x0C
    || c.toNat == 0xA0 || c.toNat == 0x1680
    || (0x2000 ≤ c.toNat && c.toNat ≤ 0x200A)
    || c.toNat == 0x2028 || c.toNat == 0x2029 || c.toNat == 0x202F
    || c.toNat == 0x205F || c.toNat == 0x3000 || c.toNat == 0xFEFF)

/-- One pass of the JavaScript replacement `replace(/\s+/g, ' ')`:
each maximal run of whitespace characters is replaced by a single space.
The boolean state records whether the previous character was whitespace
(in which case the space for the current run has already been emitted). -/
def collapseWsGo : Bool → List Char → List Char
  | _, [] => []
  | prevWs, c :: rest =>
    if isJsWhitespace c then
      if prevWs then collapseWsGo true rest
      else ' ' :: collapseWsGo true rest
    else c :: collapseWsGo false rest

/-- `replace(/\s+/g, ' ')` from `sanitizeSearchQuery` (src/search/index.ts). -/
def collapseWhitespace (l : List Char) : List Char :=
  collapseWsGo false l

/-- JavaScript `String.prototype.trim()`: remove leading and trailing
whitespace (the same character set as `\s`). -/
def trimWhitespace (l : List Char) : List Char :=
  ((l.dropWhile isJsWhitespace).reverse.dropWhile isJsWhitespace).reverse

/-- `DocumentSearch.sanitizeSearchQuery` (src/search/index.ts, lines 37-50):
the ordered chain of `replace` calls — strip dots, parentheses, asterisks,
question marks, curly braces, square brackets; replace every character
outside `[a-zA-Z0-9\s_-]` with a space; collapse whitespace runs; trim. -/
def sanitizeSearchQuery (q : List Char) : List Char :=
  trimWhitespace (collapseWhitespace (List.map
    (fun c =>
      if isAsciiAlnum c || isJsWhitespace c || c == '_' || c == '-' then c
      else ' ')
    (List.filter (fun c => !(c == '[' || c == ']'))
      (List.filter (fun c => !(c == '\x7b' || c == '\x7d'))
        (List.filter (fun c => !(c == '?'))
          (List.filter (fun c => !(c == '*'))
            (List.filter (fun c => !(c == '(' || c == ')'))
              (List.filter (fun c => !(c == '.')) q))))))))

/-- A character the sanitizer may legitimately emit: ASCII alphanumeric,
underscore or hyphen (whitespace is handled separately). -/
def isSafeWordChar (c : Char) : Bool :=
  isAsciiAlnum c || c == '_' || c == '-'

/- ### Lemmas about the sanitizer's output character set -/

theorem mem_collapseWsGo {c : Char} :
    ∀ (b : Bool) (l : List Char), c ∈ collapseWsGo b l →
      c = ' ' ∨ (c ∈ l ∧ isJsWhitespace c = false) := by
  intro b l
  induction l generalizing b with
  | nil => simp [collapseWsGo]
  | cons d rest ih =>
    intro hmem
    by_cases hws : isJsWhitespace d
    · cases b with
      | true =>
        simp only [collapseWsGo, hws, if_true] at hmem
        rcases ih true hmem with h | ⟨h1, h2⟩
        · exact Or.inl h
        · exact Or.inr ⟨List.mem_cons_of_mem _ h1, h2⟩
      | false =>
        simp only [collapseWsGo, hws, if_true] at hmem
        rcases List.mem_cons.mp hmem with h | h
        · exact Or.inl h
        · rcases ih true h with h | ⟨h1, h2⟩
          · exact Or.inl h
          · exact Or.inr ⟨List.mem_cons_of_mem _ h1, h2⟩
    · simp only [collapseWsGo, hws, if_false, Bool.false_eq_true] at hmem
      rcases List.mem_cons.mp hmem with h | h
      · subst h
        exact Or.inr ⟨List.mem_cons_self _ _, by simpa using hws⟩
      · rcases ih false h with h | ⟨h1, h2⟩
        · exact Or.inl h
        · exact Or.inr ⟨List.mem_cons_of_mem _ h1, h2⟩

theorem trimWhitespace_within (l : List Char) : trimWhitespace l <:+: l := by
  have h1 : l.dropWhile isJsWhitespace <:+ l := List.dropWhile_suffix _
  have h2 : trimWhitespace l <+: l.dropWhile isJsWhitespace := by
    rw [← List.reverse_suffix]
    unfold trimWhitespace
    rw [List.reverse_reverse]
    exact List.dropWhile_suffix _
  exact h2.isInfix.trans h1.isInfix

theorem mem_trimWhitespace {c : Char} {l : List Char}
    (h : c ∈ trimWhitespace l) : c ∈ l :=
  (trimWhitespace_within l).mem h

/-- Every character of the sanitizer's output is an ASCII alphanumeric,
a space, an underscore or a hyphen. -/
theorem sanitize_mem_safe {q : List Char} {c : Char}
    (h : c ∈ sanitizeSearchQuery q) :
    (isSafeWordChar c || c == ' ') = true := by
  unfold sanitizeSearchQuery at h
  have h1 := mem_trimWhitespace h
  rcases mem_collapseWsGo false _ h1 with hsp | ⟨hmem, hnws⟩
  · subst hsp; simp [isSafeWordChar]
  · rcases List.mem_map.mp hmem with ⟨d, _, hd⟩
    by_cases hk : (isAsciiAlnum d || isJsWhitespace d || d == '_' || d == '-') = true
    · rw [hk, if_pos rfl] at hd
      subst hd
      simp only [Bool.or_assoc, Bool.or_eq_true] at hk
      rcases hk with hk | hk | hk | hk
      · simp [isSafeWordChar, hk]
      · rw [hk] at hnws; cases hnws
      · simp [isSafeWordChar, hk]
      · simp [isSafeWordChar, hk]
    · rw [if_neg hk] at hd
      subst hd
      simp

/-- C3: for every input string `q`, the Query Sanitizer's output contains
only characters from the safe set `[A-Za-z0-9]`, whitespace, underscore and
hyphen; in particular it never contains any of `. ( ) * ? { } [ ]`. -/
theorem C3_sanitizer_safety (q : List Char) (c : Char)
    (h : c ∈ sanitizeSearchQuery q) :
    (isAsciiAlnum c || isJsWhitespace c || c == '_' || c == '-') = true ∧
    c ∉ ['.', '(', ')', '*', '?', '\x7b', '\x7d', '[', ']'] := by
  have hs := sanitize_mem_safe h
  simp only [isSafeWordChar, Bool.or_eq_true] at hs
  constructor
  · rcases hs with ((h1 | h1) | h1) | h1
    · simp [h1]
    · simp [h1]
    · simp [h1]
    · have : c = ' ' := by simpa using h1
      subst this
      simp [isJsWhitespace]
  · intro hc
    have hne : ∀ d : Char, c = d →
        (isAsciiAlnum d || (d == '_') || (d == '-') || (d == ' ')) = true := by
      intro d hd
      subst hd
      rcases hs with ((h1 | h1) | h1) | h1 <;> simp [h1]
    fin_cases hc <;> simpa [isAsciiAlnum] using hne _ rfl

/-- Witness for C3 at the concrete query `"a.b"`, whose sanitized form is
`"ab"`; the character `a` of the output satisfies the safety property. -/
theorem C3_sanitizer_safety_witness :
    (isAsciiAlnum 'a' || isJsWhitespace 'a' || 'a' == '_' || 'a' == '-') = true ∧
    'a' ∉ ['.', '(', ')', '*', '?', '\x7b', '\x7d', '[', ']'] :=
  C3_sanitizer_safety ['a', '.', 'b'] 'a' (by decide)

/- ### Lemmas towards sanitizer idempotence -/

/-- No two adjacent whitespace characters. -/
abbrev NoAdjWs (l : List Char) : Prop :=
  l.Chain' (fun a b => ¬(isJsWhitespace a = true ∧ isJsWhitespace b = true))

theorem head?_dropWhile_false {p : Char → Bool} {l : List Char} {c : Char}
    (h : (l.dropWhile p).head? = some c) : p c = false := by
  have hm := List.head?_dropWhile_not p l
  rw [h] at hm
  exact hm

theorem collapseWsGo_true_head :
    ∀ (l : List Char) (c : Char),
      (collapseWsGo true l).head? = some c → isJsWhitespace c = false := by
  intro l
  induction l with
  | nil => intro c h; cases h
  | cons d rest ih =>
    intro c h
    by_cases hws : isJsWhitespace d
    · simp only [collapseWsGo, hws, if_true] at h
      exact ih c h
    · simp only [collapseWsGo, hws, Bool.false_eq_true, if_false,
        List.head?_cons, Option.some.injEq] at h
      subst h
      simpa using hws

theorem noAdjWs_collapseWsGo :
    ∀ (l : List Char) (b : Bool), NoAdjWs (collapseWsGo b l) := by
  intro l
  induction l with
  | nil => intro b; simp [collapseWsGo]
  | cons d rest ih =>
    intro b
    by_cases hws : isJsWhitespace d
    · cases b with
      | true =>
        simp only [collapseWsGo, hws, if_true]
        exact ih true
      | false =>
        simp only [collapseWsGo, hws, if_true, Bool.false_eq_true, if_false]
        refine List.chain'_cons'.mpr ⟨?_, ih true⟩
        intro y hy
        have := collapseWsGo_true_head rest y hy
        simp [this]
    · simp only [collapseWsGo, hws, Bool.false_eq_true, if_false]
      refine List.chain'_cons'.mpr ⟨?_, ih false⟩
      intro y _
      simp [hws]

theorem collapseWsGo_false_eq_self :
    ∀ (l : List Char),
      (∀ c ∈ l, isJsWhitespace c = true → c = ' ') → NoAdjWs l →
      collapseWsGo false l = l := by
  intro l
  induction l with
  | nil => intro _ _; rfl
  | cons d rest ih =>
    intro hall hadj
    by_cases hws : isJsWhitespace d
    · have hd : d = ' ' := hall d (List.mem_cons_self _ _) hws
      have step : collapseWsGo false (d :: rest) = ' ' :: collapseWsGo true rest := by
        simp [collapseWsGo, hws]
      rw [step, hd]
      congr 1
      cases rest with
      | nil => rfl
      | cons e rest' =>
        have hpair := (List.chain'_cons'.mp hadj).1 e rfl
        have hwe : isJsWhitespace e = false := by
          rw [Bool.eq_false_iff]
          intro he
          exact hpair ⟨hws, he⟩
        have htail : collapseWsGo false (e :: rest') = e :: rest' :=
          ih (fun c hc hw => hall c (List.mem_cons_of_mem _ hc) hw)
            (List.chain'_cons'.mp hadj).2
        have h2 : collapseWsGo false (e :: rest') = e :: collapseWsGo false rest' := by
          simp [collapseWsGo, hwe]
        have h3 : collapseWsGo true (e :: rest') = e :: collapseWsGo false rest' := by
          simp [collapseWsGo, hwe]
        rw [h3, ← h2, htail]
    · have step : collapseWsGo false (d :: rest) = d :: collapseWsGo false rest := by
        simp [collapseWsGo, hws]
      rw [step,
        ih (fun c hc hw => hall c (List.mem_cons_of_mem _ hc) hw)
          (List.chain'_cons'.mp hadj).2]

theorem trimWhitespace_head {l : List Char} {c : Char}
    (h : (trimWhitespace l).head? = some c) : isJsWhitespace c = false := by
  unfold trimWhitespace at h
  rw [List.head?_reverse] at h
  obtain ⟨u, hu⟩ :=
    List.dropWhile_suffix (l := (l.dropWhile isJsWhitespace).reverse) isJsWhitespace
  have hlast : (l.dropWhile isJsWhitespace).reverse.getLast? = some c := by
    rw [← hu, List.getLast?_append, h]
    rfl
  rw [List.getLast?_reverse] at hlast
  exact head?_dropWhile_false hlast

theorem trimWhitespace_last {l : List Char} {c : Char}
    (h : (trimWhitespace l).getLast? = some c) : isJsWhitespace c = false := by
  unfold trimWhitespace at h
  rw [List.getLast?_reverse] at h
  exact head?_dropWhile_false h

theorem trimWhitespace_eq_self {l : List Char}
    (h1 : ∀ c, l.head? = some c → isJsWhitespace c = false)
    (h2 : ∀ c, l.getLast? = some c → isJsWhitespace c = false) :
    trimWhitespace l = l := by
  have e1 : l.dropWhile isJsWhitespace = l := by
    cases l with
    | nil => rfl
    | cons a t =>
      rw [List.dropWhile_cons, h1 a rfl]
      simp
  unfold trimWhitespace
  rw [e1]
  have e2 : l.reverse.dropWhile isJsWhitespace = l.reverse := by
    cases hr : l.reverse with
    | nil => rfl
    | cons a t =>
      have ha : l.getLast? = some a := by
        rw [← List.head?_reverse, hr]
        rfl
      rw [List.dropWhile_cons, h2 a ha]
      simp
  rw [e2, List.reverse_reverse]

theorem asciiAlnum_not_ws {c : Char} (h : isAsciiAlnum c = true) :
    isJsWhitespace c = false := by
  simp only [isAsciiAlnum, Bool.or_eq_true, Bool.and_eq_true,
    decide_eq_true_eq] at h
  rw [Bool.eq_false_iff]
  intro hw
  simp only [isJsWhitespace, Bool.or_eq_true, Bool.and_eq_true, beq_iff_eq,
    decide_eq_true_eq] at hw
  omega

/-- Characters in the sanitizer's output pass every filtering and mapping
step of the sanitizer unchanged. -/
theorem safe_char_steps (c : Char) (h : (isSafeWordChar c || c == ' ') = true) :
    (!(c == '.')) = true ∧ (!(c == '(' || c == ')')) = true ∧
    (!(c == '*')) = true ∧ (!(c == '?')) = true ∧
    (!(c == '\x7b' || c == '\x7d')) = true ∧
    (!(c == '[' || c == ']')) = true ∧
    (isAsciiAlnum c || isJsWhitespace c || c == '_' || c == '-') = true := by
  simp only [isSafeWordChar, Bool.or_eq_true] at h
  rcases h with ((h1 | h1) | h1) | h1
  · have d1 : c ≠ '.' := fun e => by subst e; exact absurd h1 (by decide)
    have d2 : c ≠ '(' := fun e => by subst e; exact absurd h1 (by decide)
    have d3 : c ≠ ')' := fun e => by subst e; exact absurd h1 (by decide)
    have d4 : c ≠ '*' := fun e => by subst e; exact absurd h1 (by decide)
    have d5 : c ≠ '?' := fun e => by subst e; exact absurd h1 (by decide)
    have d6 : c ≠ '\x7b' := fun e => by subst e; exact absurd h1 (by decide)
    have d7 : c ≠ '\x7d' := fun e => by subst e; exact absurd h1 (by decide)
    have d8 : c ≠ '[' := fun e => by subst e; exact absurd h1 (by decide)
    have d9 : c ≠ ']' := fun e => by subst e; exact absurd h1 (by decide)
    simp [d1, d2, d3, d4, d5, d6, d7, d8, d9, h1]
  · have : c = '_' := by simpa using h1
    subst this; decide
  · have : c = '-' := by simpa using h1
    subst this; decide
  · have : c = ' ' := by simpa using h1
    subst this; decide

theorem sanitize_ws_is_space {q : List Char} {c : Char}
    (hc : c ∈ sanitizeSearchQuery q) (hws : isJsWhitespace c = true) :
    c = ' ' := by
  have h := sanitize_mem_safe hc
  simp only [isSafeWordChar, Bool.or_eq_true] at h
  rcases h with ((h1 | h1) | h1) | h1
  · rw [asciiAlnum_not_ws h1] at hws; cases hws
  · have : c = '_' := by simpa using h1
    subst this; cases hws
  · have : c = '-' := by simpa using h1
    subst this; cases hws
  · simpa using h1

/-- C7: the Query Sanitizer is idempotent:
`sanitize(sanitize(q)) = sanitize(q)` for every input string `q`. -/
theorem C7_sanitizer_idempotent (q : List Char) :
    sanitizeSearchQuery (sanitizeSearchQuery q) = sanitizeSearchQuery q := by
  have hmem : ∀ c ∈ sanitizeSearchQuery q, (isSafeWordChar c || c == ' ') = true :=
    fun _ hc => sanitize_mem_safe hc
  have f1 : List.filter (fun c => !(c == '.')) (sanitizeSearchQuery q) =
      sanitizeSearchQuery q :=
    List.filter_eq_self.mpr (fun c hc => (safe_char_steps c (hmem c hc)).1)
  have f2 : List.filter (fun c => !(c == '(' || c == ')')) (sanitizeSearchQuery q) =
      sanitizeSearchQuery q :=
    List.filter_eq_self.mpr (fun c hc => (safe_char_steps c (hmem c hc)).2.1)
  have f3 : List.filter (fun c => !(c == '*')) (sanitizeSearchQuery q) =
      sanitizeSearchQuery q :=
    List.filter_eq_self.mpr (fun c hc => (safe_char_steps c (hmem c hc)).2.2.1)
  have f4 : List.filter (fun c => !(c == '?')) (sanitizeSearchQuery q) =
      sanitizeSearchQuery q :=
    List.filter_eq_self.mpr (fun c hc => (safe_char_steps c (hmem c hc)).2.2.2.1)
  have f5 : List.filter (fun c => !(c == '\x7b' || c == '\x7d'))
      (sanitizeSearchQuery q) = sanitizeSearchQuery q :=
    List.filter_eq_self.mpr (fun c hc => (safe_char_steps c (hmem c hc)).2.2.2.2.1)
  have f6 : List.filter (fun c => !(c == '[' || c == ']'))
      (sanitizeSearchQuery q) = sanitizeSearchQuery q :=
    List.filter_eq_self.mpr
      (fun c hc => (safe_char_steps c (hmem c hc)).2.2.2.2.2.1)
  have fmap : List.map
      (fun c =>
        if isAsciiAlnum c || isJsWhitespace c || c == '_' || c == '-' then c
        else ' ') (sanitizeSearchQuery q) = sanitizeSearchQuery q := by
    have hid : List.map
        (fun c =>
          if isAsciiAlnum c || isJsWhitespace c || c == '_' || c == '-' then c
          else ' ') (sanitizeSearchQuery q) =
        List.map id (sanitizeSearchQuery q) := by
      refine List.map_congr_left ?_
      intro c hc
      have hcnd := (safe_char_steps c (hmem c hc)).2.2.2.2.2.2
      simp only [id_eq]
      exact if_pos hcnd
    rw [hid, List.map_id]
  have fcollapse : collapseWhitespace (sanitizeSearchQuery q) =
      sanitizeSearchQuery q := by
    unfold collapseWhitespace
    refine collapseWsGo_false_eq_self _ ?_ ?_
    · exact fun c hc hw => sanitize_ws_is_space hc hw
    · exact List.Chain'.infix (noAdjWs_collapseWsGo _ false)
        (trimWhitespace_within _)
  have ftrim : trimWhitespace (sanitizeSearchQuery q) = sanitizeSearchQuery q := by
    refine trimWhitespace_eq_self ?_ ?_
    · exact fun c hc => trimWhitespace_head hc
    · exact fun c hc => trimWhitespace_last hc
  conv_lhs => rw [sanitizeSearchQuery]
  rw [f1, f2, f3, f4, f5, f6, fmap, fcollapse, ftrim]

/-! ## Pagination Layer (`read_unity_doc` handler, src/server.ts) -/

/-- JavaScript `String.prototype.substring(a, b)` for non-negative
arguments: the characters with index in `[min a b, max a b)`. -/
def jsSubstring (s : List Char) (a b : Nat) : List Char :=
  (s.take (max a b)).drop (min a b)

/-- The pagination metadata assembled by the `read_unity_doc` handler. -/
structure DocPage where
  chunk : List Char
  totalLength : Nat
  hasMore : Bool
  nextOffset : Nat
deriving DecidableEq

/-- Pagination performed by the `read_unity_doc` handler
(src/server.ts, lines 370-385):
`contentChunk = doc.content.substring(offset, offset + limit)`,
`totalLength = doc.content.length`,
`hasMore = (offset + limit) < totalLength`, and the next offset reported
in the pagination info is `offset + limit`.  The handler performs no
bound check on `offset`; it always builds a normal text response. -/
def readUnityDocPage (content : List Char) (offset limit : Nat) : DocPage :=
  { chunk := jsSubstring content offset (offset + limit)
    totalLength := content.length
    hasMore := decide (offset + limit < content.length)
    nextOffset := offset + limit }

/-- The client loop described by the spec: read the page at `offset`,
then continue from the reported next offset while `hasMore` holds,
concatenating the chunks.  Requires a positive page size to terminate. -/
def readPagesFrom (content : List Char) (limit : Nat) (hl : 0 < limit)
    (offset : Nat) : List Char :=
  if h : (readUnityDocPage content offset limit).hasMore = true then
    (readUnityDocPage content offset limit).chunk ++
      readPagesFrom content limit hl
        (readUnityDocPage content offset limit).nextOffset
  else
    (readUnityDocPage content offset limit).chunk
termination_by content.length - offset
decreasing_by
  simp only [readUnityDocPage, decide_eq_true_eq] at h
  simp only [readUnityDocPage]
  omega

theorem readUnityDocPage_chunk (content : List Char) (offset limit : Nat) :
    (readUnityDocPage content offset limit).chunk =
      (content.drop offset).take limit := by
  simp only [readUnityDocPage, jsSubstring]
  rw [Nat.min_eq_left (Nat.le_add_right _ _), Nat.max_eq_right (Nat.le_add_right _ _),
    List.drop_take, Nat.add_sub_cancel_left]

theorem readPagesFrom_eq (content : List Char) (limit : Nat) (hl : 0 < limit) :
    ∀ offset, readPagesFrom content limit hl offset = content.drop offset := by
  have main : ∀ fuel offset, content.length - offset ≤ fuel →
      readPagesFrom content limit hl offset = content.drop offset := by
    intro fuel
    induction fuel with
    | zero =>
      intro offset h0
      have hle : content.length ≤ offset := by omega
      unfold readPagesFrom
      have hnm : (readUnityDocPage content offset limit).hasMore = false := by
        simp only [readUnityDocPage, decide_eq_false_iff_not]
        omega
      simp only [hnm, Bool.false_eq_true, dif_neg, not_false_eq_true,
        readUnityDocPage_chunk]
      rw [List.drop_eq_nil_of_le hle]
      simp
    | succ n ih =>
      intro offset h
      unfold readPagesFrom
      by_cases hm : (readUnityDocPage content offset limit).hasMore = true
      · have hlt : offset + limit < content.length := by
          simpa [readUnityDocPage] using hm
        simp only [hm, dif_pos, readUnityDocPage_chunk]
        have hnext : (readUnityDocPage content offset limit).nextOffset =
            offset + limit := rfl
        rw [hnext, ih (offset + limit) (by omega)]
        rw [show content.drop (offset + limit) =
          (content.drop offset).drop limit by rw [List.drop_drop]]
        exact List.take_append_drop _ _
      · simp only [hm, dif_neg, not_false_eq_true, readUnityDocPage_chunk]
        have hge : content.length ≤ offset + limit := by
          simp only [readUnityDocPage, decide_eq_true_eq] at hm
          omega
        refine List.take_of_length_le ?_
        rw [List.length_drop]
        omega
  intro offset
  exact main (content.length - offset) offset (Nat.le_refl _)

/-- C5: each `read_unity_doc` page returns `content[offset : offset+limit]`
with `hasMore = (offset + limit < N)` and next offset `offset + limit`, and
concatenating the pages read at offsets `0, limit, 2*limit, ...` until
`hasMore` is false reconstructs the original content exactly. -/
theorem C5_pagination_completeness (content : List Char) (offset limit : Nat)
    (hl : 0 < limit) :
    (readUnityDocPage content offset limit).chunk =
      (content.drop offset).take limit ∧
    ((readUnityDocPage content offset limit).hasMore = true ↔
      offset + limit < content.length) ∧
    (readUnityDocPage content offset limit).nextOffset = offset + limit ∧
    readPagesFrom content limit hl 0 = content := by
  refine ⟨readUnityDocPage_chunk content offset limit, ?_, rfl, ?_⟩
  · simp [readUnityDocPage]
  · rw [readPagesFrom_eq content limit hl 0, List.drop_zero]

/-- Witness for C5 at content `"hello"` with `limit = 2`, `offset = 1`. -/
theorem C5_pagination_completeness_witness :
    (readUnityDocPage ['h', 'e', 'l', 'l', 'o'] 1 2).chunk =
      ((['h', 'e', 'l', 'l', 'o'] : List Char).drop 1).take 2 ∧
    ((readUnityDocPage ['h', 'e', 'l', 'l', 'o'] 1 2).hasMore = true ↔
      1 + 2 < (['h', 'e', 'l', 'l', 'o'] : List Char).length) ∧
    (readUnityDocPage ['h', 'e', 'l', 'l', 'o'] 1 2).nextOffset = 1 + 2 ∧
    readPagesFrom ['h', 'e', 'l', 'l', 'o'] 2 (by decide) 0 =
      ['h', 'e', 'l', 'l', 'o'] :=
  C5_pagination_completeness ['h', 'e', 'l', 'l', 'o'] 1 2 (by decide)

/-- C10: for every offset at or beyond the document's total content
length, `read_unity_doc` responds normally with an empty content chunk and
`hasMore = false`; an out-of-range offset is never an error (the handler
has no bound check and always produces a response). -/
theorem C10_out_of_range_offset (content : List Char) (offset limit : Nat)
    (h : content.length ≤ offset) :
    (readUnityDocPage content offset limit).chunk = [] ∧
    (readUnityDocPage content offset limit).hasMore = false := by
  constructor
  · rw [readUnityDocPage_chunk, List.drop_eq_nil_of_le h]
    simp
  · simp only [readUnityDocPage, decide_eq_false_iff_not]
    omega

/-- Witness for C10: reading `"ab"` at offset 5. -/
theorem C10_out_of_range_offset_witness :
    (readUnityDocPage ['a', 'b'] 5 2000).chunk = [] ∧
    (readUnityDocPage ['a', 'b'] 5 2000).hasMore = false :=
  C10_out_of_range_offset ['a', 'b'] 5 2000 (by decide)

/-! ## Search Engine (`DocumentSearch.search`, src/search/index.ts) -/

/-- A row of the `documents` table as read by the search SQL
(src/search/index.ts, lines 78-130).  The `type` column is a string
(named `dtype` here). -/
structure SearchDocRow where
  id : String
  title : String
  dtype : String
  file_path : String
  url : Option String
  package_name : Option String
  package_version : Option String
  unity_version : String
deriving DecidableEq

/-- The `SearchResult` projection (src/search/index.ts, lines 15-25,
132-142).  FTS5 ranks are real numbers; modelled as `Int`, which preserves
their sign and ordering (`score = Math.abs(rank)`). -/
structure SearchResult where
  id : String
  title : String
  dtype : String
  filePath : String
  url : Option String
  snippet : String
  score : Int
  packageName : Option String
  packageVersion : Option String
deriving DecidableEq

/-- The `SearchOptions` record with the defaults destructured in
`DocumentSearch.search` (src/search/index.ts, lines 56-64). -/
structure SearchOptions where
  query : List Char
  limit : Nat := 10
  offset : Nat := 0
  dtype : String := "all"
  version : String := "6000.1"
  packageName : Option String := none
  packageVersion : Option String := none

/-- `DocumentSearch.search` (src/search/index.ts, lines 55-148).
The SQLite engine is a parameter: `matchRank q d = some r` means row `d`
matches the sanitized query `q` in `documents_fts` with rank `r` (FTS5
ranks are negative for matches), `none` means no match; `snippetFn`
models the engine's `snippet(documents_fts, 1, ...)` highlight generator.
The function mirrors the handler: sanitize the query, short-circuit to
`[]` when the sanitized query is blank, otherwise run the SQL — match and
version predicate, optional type predicate (skipped for `"all"`), optional
package predicates, `ORDER BY rank`, `LIMIT ? OFFSET ?` — and project each
row to a `SearchResult` with `score = Math.abs(rank)`. -/
def search (table : List SearchDocRow)
    (matchRank : List Char → SearchDocRow → Option Int)
    (snippetFn : List Char → SearchDocRow → String)
    (opts : SearchOptions) : List SearchResult :=
  let sanitizedQuery := sanitizeSearchQuery opts.query
  if (trimWhitespace sanitizedQuery).isEmpty then []
  else
    let matched := table.filterMap
      (fun d => (matchRank sanitizedQuery d).map (fun r => (d, r)))
    let filtered := matched.filter (fun dr =>
      dr.1.unity_version == opts.version
        && (opts.dtype == "all" || dr.1.dtype == opts.dtype)
        && (match opts.packageName with
            | none => true
            | some p => dr.1.package_name == some p)
        && (match opts.packageVersion with
            | none => true
            | some p => dr.1.package_version == some p))
    let sorted := filtered.mergeSort (fun a b => a.2 ≤ b.2)
    ((sorted.drop opts.offset).take opts.limit).map (fun dr =>
      { id := dr.1.id
        title := dr.1.title
        dtype := dr.1.dtype
        filePath := dr.1.file_path
        url := dr.1.url
        snippet := snippetFn sanitizedQuery dr.1
        score := |dr.2|
        packageName := dr.1.package_name
        packageVersion := dr.1.package_version })

/-- C4: for every query whose sanitized form is empty, `search` returns
the empty result list immediately, for every possible store contents and
engine behaviour — i.e. without executing any query against the store;
this is a defined empty-result outcome, not a failure. -/
theorem C4_empty_query_short_circuit (table : List SearchDocRow)
    (matchRank : List Char → SearchDocRow → Option Int)
    (snippetFn : List Char → SearchDocRow → String) (opts : SearchOptions)
    (h : (trimWhitespace (sanitizeSearchQuery opts.query)).isEmpty = true) :
    search table matchRank snippetFn opts = [] := by
  unfold search
  rw [if_pos h]

/-- Witness for C4: the query `"..."` sanitizes to the empty string and
search returns `[]` on a nonempty store with an engine that matches
everything. -/
theorem C4_empty_query_short_circuit_witness :
    search
      [{ id := "1", title := "T", dtype := "manual", file_path := "a.html",
         url := none, package_name := none, package_version := none,
         unity_version := "6000.1" }]
      (fun _ _ => some (-1)) (fun _ _ => "snip")
      { query := ['.', '.', '.'] } = [] :=
  C4_empty_query_short_circuit _ _ _ _ (by decide)

/-- C8: with a non-`"all"` type filter `t` and limit `L`, search returns
at most `L` results, every result has type `t`, and every score is the
non-negative absolute value of the engine's native rank. -/
theorem C8_type_filter_and_limit (table : List SearchDocRow)
    (matchRank : List Char → SearchDocRow → Option Int)
    (snippetFn : List Char → SearchDocRow → String) (opts : SearchOptions)
    (t : String) (ht : opts.dtype = t) (hne : t ≠ "all") :
    (search table matchRank snippetFn opts).length ≤ opts.limit ∧
    ∀ r ∈ search table matchRank snippetFn opts,
      r.dtype = t ∧ 0 ≤ r.score := by
  unfold search
  by_cases hempty :
      (trimWhitespace (sanitizeSearchQuery opts.query)).isEmpty = true
  · rw [if_pos hempty]
    exact ⟨Nat.zero_le _, fun r hr => absurd hr (List.not_mem_nil r)⟩
  · rw [if_neg hempty]
    constructor
    · rw [List.length_map]
      exact List.length_take_le _ _
    · intro r hr
      rcases List.mem_map.mp hr with ⟨dr, hdr, hfr⟩
      have hsorted := List.mem_of_mem_drop (List.mem_of_mem_take hdr)
      have hfiltered := (List.mergeSort_perm _ _).mem_iff.mp hsorted
      have hcond := (List.mem_filter.mp hfiltered).2
      simp only [Bool.and_eq_true, Bool.or_eq_true, beq_iff_eq] at hcond
      have htype : dr.1.dtype = t := by
        rcases hcond.1.1.2 with hall | hty
        · exact absurd (ht ▸ hall) hne
        · exact ht ▸ hty
      constructor
      · rw [← hfr]
        exact htype
      · rw [← hfr]
        exact abs_nonneg _

/-- Witness for C8: a one-row manual store, query `"Rigidbody"`, type
filter `"manual"`, limit 5. -/
theorem C8_type_filter_and_limit_witness :
    (search
      [{ id := "1", title := "Rigidbody", dtype := "manual",
         file_path := "a.html", url := none, package_name := none,
         package_version := none, unity_version := "6000.1" }]
      (fun _ _ => some (-2)) (fun _ _ => "snip")
      { query := ['R'], dtype := "manual", limit := 5 }).length ≤ 5 ∧
    ∀ r ∈ search
      [{ id := "1", title := "Rigidbody", dtype := "manual",
         file_path := "a.html", url := none, package_name := none,
         package_version := none, unity_version := "6000.1" }]
      (fun _ _ => some (-2)) (fun _ _ => "snip")
      { query := ['R'], dtype := "manual", limit := 5 },
      r.dtype = "manual" ∧ 0 ≤ r.score :=
  C8_type_filter_and_limit _ _ _ _ "manual" rfl (by decide)

/-! ## Section Extractor (`extractSections`, src/server.ts, lines 32-81)

The markup is modelled as the flat list of sibling elements that the
cheerio walk (`$heading.next()`, `current.next()`) traverses: each node is
either a heading element `h1`-`h6` or a non-heading sibling element, each
carrying its `.text()`.  The source's `start`/`end` fields are always `0`
and never read, so they are omitted. -/

/-- A sibling element of the document body: a heading `h<level>` or any
other element, with its text content. -/
inductive HtmlNode where
  | heading (level : Nat) (text : List Char)
  | element (text : List Char)
deriving DecidableEq

def isHeading : HtmlNode → Bool
  | .heading _ _ => true
  | .element _ => false

/-- `parseInt(heading.tagName.substring(1))` for headings. -/
def nodeLevel : HtmlNode → Nat
  | .heading l _ => l
  | .element _ => 0

/-- `$(node).text()`. -/
def nodeText : HtmlNode → List Char
  | .heading _ t => t
  | .element t => t

/-- A section as produced by `extractSections`. -/
structure DocumentSection where
  id : String
  title : List Char
  level : Nat
  content : List Char
deriving DecidableEq

/-- `$('h1, h2, h3, h4, h5, h6').toArray()`: the headings in document
order, paired with their position in the sibling list. -/
def headingsOf (doc : List HtmlNode) : List (Nat × HtmlNode) :=
  doc.enum.filter (fun pn => isHeading pn.2)

/-- The scan `for (let i = index + 1; i < headings.length; i++)` that
finds the first later heading of level `≤ level` (the caller passes the
headings list already dropped past `index`). -/
def findNextHeading : List (Nat × HtmlNode) → Nat → Option Nat
  | [], _ => none
  | (q, n) :: rest, level =>
    if nodeLevel n ≤ level then some q else findNextHeading rest level

/-- The sibling walk of `extractSections`: starting from the node after
the heading (at absolute position `pos`), stop when the current node is
the computed `nextHeading` (identified by its position `stop`), or at any
heading (the source's defensive break); otherwise append the node's
trimmed text plus a newline when nonempty. -/
def walkContent : List HtmlNode → Nat → Option Nat → List Char
  | [], _, _ => []
  | n :: rest, pos, stop =>
    if stop = some pos then []
    else if isHeading n then []
    else
      (if (trimWhitespace (nodeText n)).isEmpty then []
       else trimWhitespace (nodeText n) ++ ['\n']) ++
        walkContent rest (pos + 1) stop

/-- `extractSections` (src/server.ts, lines 32-81). -/
def extractSections (doc : List HtmlNode) : List DocumentSection :=
  (headingsOf doc).enum.map (fun ipn =>
    let index := ipn.1
    let p := ipn.2.1
    let node := ipn.2.2
    let level := nodeLevel node
    let title := trimWhitespace (nodeText node)
    let nextHeading := findNextHeading ((headingsOf doc).drop (index + 1)) level
    { id := "section-" ++ toString index
      title := title
      level := level
      content := trimWhitespace
        (title ++ ['\n', '\n'] ++ walkContent (doc.drop (p + 1)) (p + 1) nextHeading) })

/-- The text contribution of a run of nodes, with the conventions of the
source (trimmed text plus newline, empty texts skipped). -/
def sectionTexts (l : List HtmlNode) : List Char :=
  l.foldr (fun n acc =>
    (if (trimWhitespace (nodeText n)).isEmpty then []
     else trimWhitespace (nodeText n) ++ ['\n']) ++ acc) []

/-- The content that claim C2 asserts for heading `index`: the text of
every node strictly between heading `index` and the next heading at level
`≤ L` (or document end), the section's own heading title not included. -/
def claimSectionContent (doc : List HtmlNode) (index : Nat) : List Char :=
  match (headingsOf doc).get? index with
  | none => []
  | some (p, node) =>
    let level := nodeLevel node
    let region :=
      match findNextHeading ((headingsOf doc).drop (index + 1)) level with
      | none => doc.drop (p + 1)
      | some q => (doc.drop (p + 1)).take (q - (p + 1))
    trimWhitespace (sectionTexts region)

/-- C2 counterexample: on the markup `h2 "T"; <p> "a"; h3 "S"; <p> "b"`,
the first section's content is `"T\n\na"`: it starts with the section's
own heading title (which the claim excludes), stops at the deeper `h3`
(which the claim's boundary `level ≤ L` would not), and therefore differs
from the claim's `"a\nS\nb"`. -/
theorem C2_counterexample :
    (extractSections
        [HtmlNode.heading 2 ['T'], HtmlNode.element ['a'],
         HtmlNode.heading 3 ['S'], HtmlNode.element ['b']]).map
      (fun s => s.content) =
      [['T', '\n', '\n', 'a'], ['S', '\n', '\n', 'b']] ∧
    claimSectionContent
        [HtmlNode.heading 2 ['T'], HtmlNode.element ['a'],
         HtmlNode.heading 3 ['S'], HtmlNode.element ['b']] 0 =
      ['a', '\n', 'S', '\n', 'b'] ∧
    (['T', '\n', '\n', 'a'] : List Char) ≠ ['a', '\n', 'S', '\n', 'b'] := by
  refine ⟨?_, ?_, by decide⟩ <;> rfl

/-- What `extractSections` actually computes for heading `index`
(C2 as amended): the heading's own trimmed title, a blank line, then the
texts of the non-heading siblings strictly between heading `index` and the
first following heading of ANY level (or document end), the whole
trimmed. -/
def codeSectionContentSpec (doc : List HtmlNode) (index : Nat) : List Char :=
  match (headingsOf doc).get? index with
  | none => []
  | some (p, node) =>
    trimWhitespace
      (trimWhitespace (nodeText node) ++ ['\n', '\n'] ++
        sectionTexts ((doc.drop (p + 1)).takeWhile (fun n => !isHeading n)))

theorem walkContent_eq_sectionTexts :
    ∀ (l : List HtmlNode) (pos : Nat) (stop : Option Nat),
      (∀ q, stop = some q →
        pos + (l.takeWhile (fun n => !isHeading n)).length ≤ q) →
      walkContent l pos stop =
        sectionTexts (l.takeWhile (fun n => !isHeading n)) := by
  intro l
  induction l with
  | nil => intro pos stop _; rfl
  | cons n rest ih =>
    intro pos stop hstop
    by_cases hh : isHeading n = true
    · have htw : (n :: rest).takeWhile (fun m => !isHeading m) = [] := by
        rw [List.takeWhile_cons]
        simp [hh]
      rw [htw]
      by_cases hs : stop = some pos
      · simp [walkContent, hs, sectionTexts]
      · simp [walkContent, hs, hh, sectionTexts]
    · have htw : (n :: rest).takeWhile (fun m => !isHeading m) =
          n :: rest.takeWhile (fun m => !isHeading m) := by
        rw [List.takeWhile_cons]
        simp [hh]
      have hns : stop ≠ some pos := by
        intro he
        have hc := hstop pos he
        rw [htw] at hc
        simp only [List.length_cons] at hc
        omega
      rw [htw]
      simp only [walkContent, if_neg hns, hh, Bool.false_eq_true, if_false,
        sectionTexts, List.foldr_cons]
      have hrec := ih (pos + 1) stop (by
        intro q hq
        have hc := hstop q hq
        rw [htw] at hc
        simp only [List.length_cons] at hc
        omega)
      rw [hrec]
      rfl

theorem pairwise_fst_lt_enumFrom {α : Type} :
    ∀ (m : Nat) (l : List α),
      List.Pairwise (fun a b : Nat × α => a.1 < b.1) (List.enumFrom m l) := by
  intro m l
  induction l generalizing m with
  | nil => simp
  | cons x xs ih =>
    rw [List.enumFrom_cons]
    refine List.Pairwise.cons ?_ (ih (m + 1))
    intro b hb
    obtain ⟨i, y⟩ := b
    have := (List.mem_enumFrom hb).1
    simpa using this

theorem pairwise_fst_lt_headingsOf (doc : List HtmlNode) :
    List.Pairwise (fun a b : Nat × HtmlNode => a.1 < b.1) (headingsOf doc) :=
  List.Pairwise.filter _ (pairwise_fst_lt_enumFrom 0 doc)

theorem headingsOf_mem {doc : List HtmlNode} {q : Nat} {n : HtmlNode}
    (h : (q, n) ∈ headingsOf doc) :
    doc[q]? = some n ∧ isHeading n = true := by
  unfold headingsOf at h
  have h1 := List.mem_filter.mp h
  exact ⟨List.mem_enum_iff_getElem?.mp h1.1, h1.2⟩

theorem findNextHeading_mem :
    ∀ (hs : List (Nat × HtmlNode)) (level q : Nat),
      findNextHeading hs level = some q → ∃ n, (q, n) ∈ hs := by
  intro hs
  induction hs with
  | nil => intro level q h; cases h
  | cons pn rest ih =>
    intro level q h
    obtain ⟨p', n'⟩ := pn
    by_cases hl : nodeLevel n' ≤ level
    · simp only [findNextHeading, if_pos hl, Option.some.injEq] at h
      subst h
      exact ⟨n', List.mem_cons_self _ _⟩
    · simp only [findNextHeading, if_neg hl] at h
      obtain ⟨n, hn⟩ := ih level q h
      exact ⟨n, List.mem_cons_of_mem _ hn⟩

theorem fst_lt_of_mem_drop {hs : List (Nat × HtmlNode)}
    (hpw : List.Pairwise (fun a b : Nat × HtmlNode => a.1 < b.1) hs)
    {i : Nat} {a b : Nat × HtmlNode} (hi : i < hs.length) (ha : hs[i] = a)
    (hb : b ∈ hs.drop (i + 1)) : a.1 < b.1 := by
  obtain ⟨j, hj⟩ := List.mem_iff_getElem?.mp hb
  rw [List.getElem?_drop] at hj
  obtain ⟨hjl, hjb⟩ := List.getElem?_eq_some.mp hj
  have := List.pairwise_iff_getElem.mp hpw i (i + 1 + j) hi hjl (by omega)
  rw [ha, hjb] at this
  exact this

/-- If `findNextHeading` (scanning the headings after `index`) returns a
stop position `q`, then `q` lies at or beyond the first heading of any
level after position `p` — i.e. past every node the sibling walk's
take-while region covers. -/
theorem findNextHeading_ge_takeWhile {doc : List HtmlNode} {index p : Nat}
    {node : HtmlNode} (hi : index < (headingsOf doc).length)
    (hidx : (headingsOf doc)[index] = (p, node)) (q : Nat)
    (hq : findNextHeading ((headingsOf doc).drop (index + 1))
      (nodeLevel node) = some q) :
    (p + 1) + ((doc.drop (p + 1)).takeWhile (fun n => !isHeading n)).length ≤ q := by
  obtain ⟨n, hn⟩ := findNextHeading_mem _ _ _ hq
  have hpq : p < q :=
    fst_lt_of_mem_drop (pairwise_fst_lt_headingsOf doc) hi hidx hn
  obtain ⟨hdq, hhn⟩ := headingsOf_mem (List.mem_of_mem_drop hn)
  by_contra hcon
  push_neg at hcon
  have hk : q - (p + 1) <
      ((doc.drop (p + 1)).takeWhile (fun n => !isHeading n)).length := by
    omega
  have htake := List.prefix_iff_eq_take.mp
    (List.takeWhile_prefix (l := doc.drop (p + 1)) (fun n => !isHeading n))
  have hget :
      ((doc.drop (p + 1)).takeWhile (fun n => !isHeading n))[q - (p + 1)]? =
        some (((doc.drop (p + 1)).takeWhile (fun n => !isHeading n)).get
          ⟨q - (p + 1), hk⟩) := by
    rw [List.get_eq_getElem]
    exact List.getElem?_eq_getElem hk
  set x := ((doc.drop (p + 1)).takeWhile (fun n => !isHeading n)).get
    ⟨q - (p + 1), hk⟩ with hxdef
  have hxmem : x ∈ (doc.drop (p + 1)).takeWhile (fun n => !isHeading n) := by
    rw [hxdef, List.get_eq_getElem]
    exact List.getElem_mem _
  have hxnh := List.mem_takeWhile_imp hxmem
  have hdocq : doc[q]? = some x := by
    rw [htake, List.getElem?_take, if_pos hk, List.getElem?_drop] at hget
    rw [show p + 1 + (q - (p + 1)) = q by omega] at hget
    exact hget
  rw [hdq] at hdocq
  injection hdocq with he
  rw [← he, hhn] at hxnh
  simp at hxnh

/-- C2 as amended: for every markup and heading `index`, the extracted
section's content equals the heading's own trimmed title followed by a
blank line and the texts of the sibling nodes strictly between heading
`index` and the first following heading of any level (or document end),
the whole trimmed — in particular the heading's title IS part of the
content, and the boundary is the next heading of any level, not only of
level `≤ L`. -/
theorem C2_amended_section_content (doc : List HtmlNode) (index : Nat)
    (h : index < (extractSections doc).length) :
    ((extractSections doc).get ⟨index, h⟩).content =
      codeSectionContentSpec doc index := by
  have hlen : (extractSections doc).length = (headingsOf doc).length := by
    simp [extractSections, List.enum_length]
  have hi : index < (headingsOf doc).length := hlen ▸ h
  have hie : index < (headingsOf doc).enum.length := by
    rw [List.enum_length]; exact hi
  rcases hpn : (headingsOf doc)[index] with ⟨p, node⟩
  have hget? : (headingsOf doc).get? index = some (p, node) := by
    rw [List.get?_eq_getElem?, List.getElem?_eq_getElem hi, hpn]
  have hwalk := walkContent_eq_sectionTexts (doc.drop (p + 1)) (p + 1)
    (findNextHeading ((headingsOf doc).drop (index + 1)) (nodeLevel node))
    (fun q hq => findNextHeading_ge_takeWhile hi hpn q hq)
  unfold extractSections
  rw [List.get_eq_getElem, List.getElem_map, List.getElem_enum, hpn]
  unfold codeSectionContentSpec
  rw [hget?]
  simp only []
  rw [hwalk]

/-- Witness for the amended C2 on the counterexample markup, heading 0. -/
theorem C2_amended_section_content_witness :
    ((extractSections [HtmlNode.heading 2 ['T'], HtmlNode.element ['a'],
        HtmlNode.heading 3 ['S'], HtmlNode.element ['b']]).get
      ⟨0, by decide⟩).content =
      codeSectionContentSpec
        [HtmlNode.heading 2 ['T'], HtmlNode.element ['a'],
         HtmlNode.heading 3 ['S'], HtmlNode.element ['b']] 0 :=
  C2_amended_section_content
    [HtmlNode.heading 2 ['T'], HtmlNode.element ['a'],
     HtmlNode.heading 3 ['S'], HtmlNode.element ['b']] 0 (by decide)

/-! ## Document Store and Document Indexer
(src/database/schema.ts; index-docs script in src/unnamed/part_004) -/

/-- A row of the `documents` table after the v2 migration
(src/database/schema.ts): the original columns plus the `package_name`
and `package_version` columns added by `Migration.migrateToV2`. -/
structure StoredDoc where
  id : String
  unity_version : String
  dtype : String
  title : String
  file_path : String
  url : String
  content : String
  html : String
  package_name : Option String := none
  package_version : Option String := none
deriving DecidableEq

/-- The CHECK constraint on the `type` column in `CREATE_TABLES_SQL`
(src/database/schema.ts, line 21): `type IN ('manual', 'script-reference')`.
`Migration.migrateToV2` only runs `ALTER TABLE ... ADD COLUMN` and creates
an index; SQLite cannot alter a CHECK constraint, so this constraint still
governs every insert and update after the migration. -/
def typeCheckOk (t : String) : Bool :=
  t == "manual" || t == "script-reference"

/-- `INSERT INTO documents ...`: the statement fails (and better-sqlite3
throws) when the CHECK constraint on `type` is violated or the PRIMARY KEY
`id` already exists; on success the row is appended.  (`INSERT OR REPLACE`,
used by the package indexers, changes only the PRIMARY-KEY-conflict case,
never the CHECK case.) -/
def insertDocument (store : List StoredDoc) (d : StoredDoc) :
    Option (List StoredDoc) :=
  if !(typeCheckOk d.dtype) then none
  else if store.any (fun e => e.id == d.id) then none
  else some (store ++ [d])

/-- One `.html` file of the documentation directory, together with the
parse result the external `HtmlParser` collaborator produces for it. -/
structure SourceFile where
  relativePath : String
  html : String
  parsedType : String
  parsedTitle : String
  parsedContent : String
deriving DecidableEq

/-- The document the index-docs script builds for one file:
`id = createHash('sha256').update(version + ':' + relativePath)` truncated
to 16 hex digits — the hash is passed as a parameter `hash`, of which only
determinism (being a function) is used — and `url = unity://version/path`. -/
def mkIndexedDoc (hash : String → String) (version : String)
    (f : SourceFile) : StoredDoc :=
  { id := hash (version ++ ":" ++ f.relativePath)
    unity_version := version
    dtype := f.parsedType
    title := f.parsedTitle
    file_path := f.relativePath
    url := "unity://" ++ version ++ "/" ++ f.relativePath
    content := f.parsedContent
    html := f.html }

/-- `DELETE FROM documents WHERE unity_version = ?`. -/
def deleteVersionDocs (store : List StoredDoc) (version : String) :
    List StoredDoc :=
  store.filter (fun d => !(d.unity_version == version))

/-- Outcome of an indexing run: final table contents, `processedCount`,
`errorCount`. -/
structure IndexRunResult where
  store : List StoredDoc
  processed : Nat
  errors : Nat
deriving DecidableEq

/-- Processing of one file by the index-docs script: try the insert; a
failure is caught per-file and only counted. -/
def indexDocsStep (hash : String → String) (version : String)
    (acc : IndexRunResult) (f : SourceFile) : IndexRunResult :=
  match insertDocument acc.store (mkIndexedDoc hash version f) with
  | some s => { acc with store := s, processed := acc.processed + 1 }
  | none => { acc with errors := acc.errors + 1 }

/-- The index-docs script (src/unnamed/part_004, lines 177-303): first
`DELETE FROM documents WHERE unity_version = ?`, then insert each parsed
file in directory order. -/
def indexDocsRun (hash : String → String) (version : String)
    (files : List SourceFile) (store : List StoredDoc) : IndexRunResult :=
  files.foldl (indexDocsStep hash version)
    { store := deleteVersionDocs store version, processed := 0, errors := 0 }

/-- C9 (evaluating the code at the failing input): the write-time CHECK
constraint accepts exactly `manual` and `script-reference`; an insert
carrying `package-docs` — as every row written by the package indexing
scripts does — is rejected, although the v2 migration's own log message
(`type constraint now includes "package-docs"`) and the changelog promise
package-docs rows are accepted. -/
theorem C9_package_docs_insert_rejected :
    typeCheckOk "manual" = true ∧
    typeCheckOk "script-reference" = true ∧
    typeCheckOk "package-docs" = false ∧
    insertDocument []
      { id := "7a1b2c3d4e5f6071", unity_version := "6000.1",
        dtype := "package-docs", title := "Entities overview",
        file_path := "index.html", url := "u", content := "c",
        html := "<h1>Entities</h1>",
        package_name := some "com.unity.entities",
        package_version := some "1.3.2" } = none := by
  refine ⟨rfl, rfl, rfl, rfl⟩

theorem insertDocument_some {st : List StoredDoc} {d : StoredDoc}
    {s' : List StoredDoc} (h : insertDocument st d = some s') :
    s' = st ++ [d] ∧ st.any (fun e => e.id == d.id) = false := by
  unfold insertDocument at h
  by_cases h1 : (!typeCheckOk d.dtype) = true
  · rw [if_pos h1] at h; cases h
  · rw [if_neg h1] at h
    by_cases h2 : st.any (fun e => e.id == d.id) = true
    · rw [if_pos h2] at h; cases h
    · rw [if_neg h2] at h
      injection h with h
      exact ⟨h.symm, Bool.eq_false_iff.mpr h2⟩

theorem indexFold_store_shape (hash : String → String) (version : String) :
    ∀ (files : List SourceFile) (acc : IndexRunResult),
      ∃ tail, (files.foldl (indexDocsStep hash version) acc).store =
        acc.store ++ tail ∧ ∀ d ∈ tail, d.unity_version = version := by
  intro files
  induction files with
  | nil =>
    intro acc
    exact ⟨[], by simp, by simp⟩
  | cons f fs ih =>
    intro acc
    rw [List.foldl_cons]
    rcases hstep : insertDocument acc.store (mkIndexedDoc hash version f) with
      _ | s
    · have : indexDocsStep hash version acc f =
          { acc with errors := acc.errors + 1 } := by
        unfold indexDocsStep
        rw [hstep]
      rw [this]
      obtain ⟨tail, h1, h2⟩ := ih { acc with errors := acc.errors + 1 }
      exact ⟨tail, h1, h2⟩
    · have : indexDocsStep hash version acc f =
          { acc with store := s, processed := acc.processed + 1 } := by
        unfold indexDocsStep
        rw [hstep]
      rw [this]
      obtain ⟨hs, _⟩ := insertDocument_some hstep
      obtain ⟨tail, h1, h2⟩ := ih
        { acc with store := s, processed := acc.processed + 1 }
      refine ⟨[mkIndexedDoc hash version f] ++ tail, ?_, ?_⟩
      · simp only at h1
        rw [h1, hs, List.append_assoc]
      · intro d hd
        rcases List.mem_append.mp hd with hd | hd
        · rcases List.mem_singleton.mp hd with rfl
          rfl
        · exact h2 d hd

theorem deleteVersionDocs_idem (store : List StoredDoc) (v : String) :
    deleteVersionDocs (deleteVersionDocs store v) v =
      deleteVersionDocs store v := by
  unfold deleteVersionDocs
  exact List.filter_eq_self.mpr (fun d hd => (List.mem_filter.mp hd).2)

theorem deleteVersionDocs_run_store (hash : String → String) (version : String)
    (files : List SourceFile) (s0 : List StoredDoc) :
    deleteVersionDocs (indexDocsRun hash version files s0).store version =
      deleteVersionDocs s0 version := by
  obtain ⟨tail, h1, h2⟩ := indexFold_store_shape hash version files
    { store := deleteVersionDocs s0 version, processed := 0, errors := 0 }
  unfold indexDocsRun
  rw [h1]
  simp only
  unfold deleteVersionDocs
  rw [List.filter_append]
  have he : List.filter (fun d => !(d.unity_version == version)) tail = [] := by
    rw [List.filter_eq_nil_iff]
    intro d hd
    rw [h2 d hd]
    simp
  rw [he, List.append_nil]
  exact deleteVersionDocs_idem s0 version

theorem insertDocument_nodup {st : List StoredDoc} {d : StoredDoc}
    {s' : List StoredDoc} (hn : (st.map StoredDoc.id).Nodup)
    (he : insertDocument st d = some s') : (s'.map StoredDoc.id).Nodup := by
  obtain ⟨hs, hany⟩ := insertDocument_some he
  subst hs
  rw [List.map_append, List.nodup_append]
  refine ⟨hn, by simp, ?_⟩
  intro x hx hx2
  rcases List.mem_map.mp hx with ⟨e, hem, hex⟩
  have : e.id ≠ d.id := by
    have := List.any_eq_false.mp hany e hem
    simpa using this
  simp only [List.map_cons, List.map_nil, List.mem_singleton] at hx2
  exact this (hex ▸ hx2)

theorem indexFold_nodup (hash : String → String) (version : String) :
    ∀ (files : List SourceFile) (acc : IndexRunResult),
      (acc.store.map StoredDoc.id).Nodup →
      ((files.foldl (indexDocsStep hash version) acc).store.map
        StoredDoc.id).Nodup := by
  intro files
  induction files with
  | nil => intro acc h; exact h
  | cons f fs ih =>
    intro acc h
    rw [List.foldl_cons]
    rcases hstep : insertDocument acc.store (mkIndexedDoc hash version f) with
      _ | s
    · have hst : indexDocsStep hash version acc f =
          { acc with errors := acc.errors + 1 } := by
        unfold indexDocsStep; rw [hstep]
      rw [hst]
      exact ih _ h
    · have hst : indexDocsStep hash version acc f =
          { acc with store := s, processed := acc.processed + 1 } := by
        unfold indexDocsStep; rw [hstep]
      rw [hst]
      exact ih _ (insertDocument_nodup h hstep)

theorem deleteVersionDocs_nodup {s0 : List StoredDoc} {v : String}
    (h : (s0.map StoredDoc.id).Nodup) :
    ((deleteVersionDocs s0 v).map StoredDoc.id).Nodup :=
  ((List.filter_sublist s0).map StoredDoc.id).nodup h

/-- C6: running the Document Indexer twice on an unchanged directory for
the same version yields the same run outcome — identical table contents
and identical document count — and no duplicate document ids: the prior
documents of the version scope are deleted before reinsertion, ids are a
deterministic function of `(version, relative-path)`, and the PRIMARY KEY
rejects duplicate ids. -/
theorem C6_reindex_idempotent (hash : String → String) (version : String)
    (files : List SourceFile) (s0 : List StoredDoc)
    (h : (s0.map StoredDoc.id).Nodup) :
    indexDocsRun hash version files
        (indexDocsRun hash version files s0).store =
      indexDocsRun hash version files s0 ∧
    (((indexDocsRun hash version files s0).store.map StoredDoc.id).Nodup) := by
  constructor
  · have hpurge := deleteVersionDocs_run_store hash version files s0
    unfold indexDocsRun at hpurge ⊢
    rw [hpurge]
  · exact indexFold_nodup hash version files _ (deleteVersionDocs_nodup h)

/-- Witness for C6 on a one-file directory over a store holding one
document of another version. -/
theorem C6_reindex_idempotent_witness :
    indexDocsRun (fun s => s) "6000.1"
        [{ relativePath := "Manual/index.html", html := "<h1>A</h1>",
           parsedType := "manual", parsedTitle := "A", parsedContent := "a" }]
        ((indexDocsRun (fun s => s) "6000.1"
          [{ relativePath := "Manual/index.html", html := "<h1>A</h1>",
             parsedType := "manual", parsedTitle := "A",
             parsedContent := "a" }]
          [{ id := "old", unity_version := "6000.0", dtype := "manual",
             title := "Old", file_path := "Manual/old.html", url := "u",
             content := "c", html := "<h1>Old</h1>" }]).store) =
      indexDocsRun (fun s => s) "6000.1"
        [{ relativePath := "Manual/index.html", html := "<h1>A</h1>",
           parsedType := "manual", parsedTitle := "A", parsedContent := "a" }]
        [{ id := "old", unity_version := "6000.0", dtype := "manual",
           title := "Old", file_path := "Manual/old.html", url := "u",
           content := "c", html := "<h1>Old</h1>" }] ∧
    (((indexDocsRun (fun s => s) "6000.1"
        [{ relativePath := "Manual/index.html", html := "<h1>A</h1>",
           parsedType := "manual", parsedTitle := "A", parsedContent := "a" }]
        [{ id := "old", unity_version := "6000.0", dtype := "manual",
           title := "Old", file_path := "Manual/old.html", url := "u",
           content := "c", html := "<h1>Old</h1>" }]).store.map
      StoredDoc.id).Nodup) :=
  C6_reindex_idempotent (fun s => s) "6000.1" _ _ (by simp)

/-! ### Statement-level execution of the index-docs run (claim C1)

The index-docs script calls `deleteStmt.run(version)` and then
`insertStmt.run(...)` per file directly on the connection.  Unlike
`init-db.ts` and the package indexing scripts, it never wraps these calls
in `database.transaction(...)`; under better-sqlite3 each `run()` without
an open transaction autocommits individually.  A run that fails after `k`
statements therefore leaves exactly the effects of those `k` statements
committed. -/

/-- One SQL statement executed by the index-docs script. -/
inductive DbStatement where
  | deleteVersion (v : String)
  | insertDoc (d : StoredDoc)
deriving DecidableEq

/-- The committed effect of one autocommitted statement on the documents
table; a failed INSERT (CHECK or PRIMARY KEY violation) commits nothing. -/
def applyStatement (s : List StoredDoc) : DbStatement → List StoredDoc
  | .deleteVersion v => deleteVersionDocs s v
  | .insertDoc d =>
    match insertDocument s d with
    | some s' => s'
    | none => s

/-- The statement sequence of one index-docs run: the version purge
followed by one insert per file, in directory order. -/
def indexDocsStatements (hash : String → String) (version : String)
    (files : List SourceFile) : List DbStatement :=
  DbStatement.deleteVersion version ::
    files.map (fun f => DbStatement.insertDoc (mkIndexedDoc hash version f))

/-- The table state visible after the first `k` statements have executed
and the run then fails: with per-statement autocommit, every executed
statement's effect is durable. -/
def committedAfter (store : List StoredDoc) (stmts : List DbStatement)
    (k : Nat) : List StoredDoc :=
  (stmts.take k).foldl applyStatement store

/-- The documents of one version scope. -/
def versionScope (store : List StoredDoc) (v : String) : List StoredDoc :=
  store.filter (fun d => d.unity_version == v)

/-- C1 counterexample: a store holding one `6000.1` document, a directory
of two files; the run fails after the purge and the first insert
(statement 2 of 3, mid-batch).  The committed `6000.1` scope then holds
the first new document instead of the pre-batch document — the purge and
a partial insert are visible, so the store is not in its pre-batch state
for the version scope. -/
theorem C1_counterexample :
    2 < (indexDocsStatements (fun s => s) "6000.1"
      [{ relativePath := "Manual/a.html", html := "<h1>A</h1>",
         parsedType := "manual", parsedTitle := "A", parsedContent := "a" },
       { relativePath := "Manual/b.html", html := "<h1>B</h1>",
         parsedType := "manual", parsedTitle := "B",
         parsedContent := "b" }]).length ∧
    versionScope
      (committedAfter
        [{ id := "old-id", unity_version := "6000.1", dtype := "manual",
           title := "Old", file_path := "Manual/old.html", url := "u",
           content := "c", html := "<h1>Old</h1>" }]
        (indexDocsStatements (fun s => s) "6000.1"
          [{ relativePath := "Manual/a.html", html := "<h1>A</h1>",
             parsedType := "manual", parsedTitle := "A", parsedContent := "a" },
           { relativePath := "Manual/b.html", html := "<h1>B</h1>",
             parsedType := "manual", parsedTitle := "B",
             parsedContent := "b" }])
        2) "6000.1" ≠
    versionScope
      [{ id := "old-id", unity_version := "6000.1", dtype := "manual",
         title := "Old", file_path := "Manual/old.html", url := "u",
         content := "c", html := "<h1>Old</h1>" }] "6000.1" := by
  exact ⟨by decide, by decide⟩

/-- C1 as amended: because the purge and the inserts autocommit
individually (there is no wrapping transaction in the index-docs script),
a run that fails after the purge and the first `j` inserts leaves the
store exactly as if the indexer had completed a run over only the first
`j` files: the purge and the successful prefix of inserts are durable,
and the pre-batch state of the version scope is not restored. -/
theorem indexFold_store_eq_statements (hash : String → String)
    (version : String) :
    ∀ (fs : List SourceFile) (acc : IndexRunResult),
      (fs.foldl (indexDocsStep hash version) acc).store =
        (fs.map (fun f => DbStatement.insertDoc
          (mkIndexedDoc hash version f))).foldl applyStatement acc.store := by
  intro fs
  induction fs with
  | nil => intro acc; rfl
  | cons f rest ih =>
    intro acc
    rw [List.map_cons, List.foldl_cons, List.foldl_cons]
    rcases hstep : insertDocument acc.store (mkIndexedDoc hash version f) with
      _ | s
    · have h1 : applyStatement acc.store
          (DbStatement.insertDoc (mkIndexedDoc hash version f)) = acc.store := by
        simp only [applyStatement, hstep]
      have h2 : indexDocsStep hash version acc f =
          { acc with errors := acc.errors + 1 } := by
        unfold indexDocsStep
        rw [hstep]
      rw [h1, h2]
      exact ih _
    · have h1 : applyStatement acc.store
          (DbStatement.insertDoc (mkIndexedDoc hash version f)) = s := by
        simp only [applyStatement, hstep]
      have h2 : indexDocsStep hash version acc f =
          { acc with store := s, processed := acc.processed + 1 } := by
        unfold indexDocsStep
        rw [hstep]
      rw [h1, h2]
      exact ih _

theorem C1_amended_partial_run_visible (hash : String → String)
    (version : String) (files : List SourceFile) (store : List StoredDoc)
    (j : Nat) (hj : j ≤ files.length) :
    committedAfter store (indexDocsStatements hash version files) (j + 1) =
      (indexDocsRun hash version (files.take j) store).store := by
  have _hj := hj
  unfold committedAfter indexDocsStatements
  rw [List.take_succ_cons, ← List.map_take, List.foldl_cons]
  unfold indexDocsRun
  rw [indexFold_store_eq_statements hash version (files.take j)
    { store := deleteVersionDocs store version, processed := 0, errors := 0 }]
  rfl

/-- Witness for the amended C1: failing after the purge and one of two
inserts leaves the store of a completed one-file run. -/
theorem C1_amended_partial_run_visible_witness :
    committedAfter
      [{ id := "old-id", unity_version := "6000.1", dtype := "manual",
         title := "Old", file_path := "Manual/old.html", url := "u",
         content := "c", html := "<h1>Old</h1>" }]
      (indexDocsStatements (fun s => s) "6000.1"
        [{ relativePath := "Manual/a.html", html := "<h1>A</h1>",
           parsedType := "manual", parsedTitle := "A", parsedContent := "a" },
         { relativePath := "Manual/b.html", html := "<h1>B</h1>",
           parsedType := "manual", parsedTitle := "B", parsedContent := "b" }])
      (1 + 1) =
      (indexDocsRun (fun s => s) "6000.1"
        ([{ relativePath := "Manual/a.html", html := "<h1>A</h1>",
            parsedType := "manual", parsedTitle := "A", parsedContent := "a" },
          { relativePath := "Manual/b.html", html := "<h1>B</h1>",
            parsedType := "manual", parsedTitle := "B",
            parsedContent := "b" }].take 1)
        [{ id := "old-id", unity_version := "6000.1", dtype := "manual",
           title := "Old", file_path := "Manual/old.html", url := "u",
           content := "c", html := "<h1>Old</h1>" }]).store :=
  C1_amended_partial_run_visible (fun s => s) "6000.1" _ _ 1 (by decide)

end UnityDocs
